import Mathlib

/-!
Verification development for the `lingualeo-translator` repository
(`lingualeo_translator/lingualeo.py`).  The Python source is shallowly
embedded: strings are `String`/`List Char`, dictionaries are association
lists, HTTP responses are records, and each Python function becomes a
Lean definition with the same structure.
-/

namespace Lingualeo

/-! ### Python character-class primitives

`pyIsSpace` models Python's `str.strip()` whitespace class and the `\s`
regex class restricted to the ASCII whitespace characters (the Unicode
extras never occur in the inputs this program handles).
`Char.isDigit` models `str.isdigit` restricted to ASCII digits. -/

def pyIsSpace (c : Char) : Bool :=
  c = ' ' || c = '\t' || c = '\n' || c = '\r' || c = '\x0b' || c = '\x0c'

/-- The character set in `word.strip(u' ;:,\n')` at `lingualeo.py:187`. -/
def inStripSet (c : Char) : Bool :=
  c = ' ' || c = ';' || c = ':' || c = ',' || c = '\n'

/-- The three delimiter characters of the split regex
`r'(\s*?:\s*?|\s*?,\s*?|\s*?;\s*?)'` at `lingualeo.py:190`. -/
def isDelimChar (c : Char) : Bool :=
  c = ':' || c = ',' || c = ';'

/-- Python `s.strip(chars)` / `s.strip()` on a character list: drop the
matching characters from both ends. -/
def pyStripBy (f : Char → Bool) (l : List Char) : List Char :=
  ((l.dropWhile f).reverse.dropWhile f).reverse

/-- `word.strip()` (whitespace strip). -/
def stripWs (l : List Char) : List Char := pyStripBy pyIsSpace l

/-- `word.strip(u' ;:,\n')`: the cleaning applied to each kept fragment. -/
def cleanFrag (l : List Char) : List Char := pyStripBy inStripSet l

/-! ### The split regex

`re.split(r'(\s*?:\s*?|\s*?,\s*?|\s*?;\s*?)', s)`.  Because the `\s*?`
parts are non-greedy, a delimiter match is a (possibly empty) whitespace
run immediately followed by one of `:`/`,`/`;`, found leftmost-first;
the capture group puts every matched delimiter into the result list.
`takeDelim l` returns `some (d, rest)` when such a match starts at the
head of `l`, with `d` the matched text. -/

/-- The scanner behind `re.split` with the pattern above.  `acc` is the
fragment accumulated so far; `pend` is the trailing whitespace run, still
undecided between belonging to the fragment (if a regular character
follows) or to a captured delimiter (if a delimiter character follows,
which is how the leftmost-first match absorbs the whitespace run). -/
def splitRun (acc pend : List Char) : List Char → List (List Char)
  | [] => [acc ++ pend]
  | c :: rest =>
    if isDelimChar c then acc :: (pend ++ [c]) :: splitRun [] [] rest
    else if pyIsSpace c then splitRun acc (pend ++ [c]) rest
    else splitRun (acc ++ pend ++ [c]) [] rest

/-- `re.split(r'(\s*?:\s*?|\s*?,\s*?|\s*?;\s*?)', s)`: the captured
delimiters are interleaved with the fragments in the result. -/
def reSplit (l : List Char) : List (List Char) := splitRun [] [] l

/-! ### The extractor (`lingualeo.py:186-192`)

```
sorted_pairs = sorted((
    (translate.get('votes', 0), word.strip(u' ;:,\n'))
    for translate in translates
    for word in re.split(
        r'(\s*?:\s*?|\s*?,\s*?|\s*?;\s*?)', translate['value'].strip())
    if len(word.strip()) > 2 and not word.strip()[0].isdigit()
), reverse=True)
```
-/

/-- The generator's filter: `len(word.strip()) > 2 and not
word.strip()[0].isdigit()`. -/
def keepFrag (w : List Char) : Bool :=
  match stripWs w with
  | [] => false
  | h :: t => decide (2 < (h :: t).length) && !h.isDigit

/-- One element of the service's `translate` list: a `value` string and an
optional `votes` integer (`translate.get('votes', 0)`). -/
structure RawEntry where
  votes : Option Int
  value : String

/-- The `(votes, cleaned-word)` pairs one raw entry contributes. -/
def extractValue (votes : Int) (value : String) : List (Int × String) :=
  (reSplit (stripWs value.data)).filterMap
    (fun w => if keepFrag w then some (votes, String.mk (cleanFrag w)) else none)

/-- All pairs across the whole `translates` list. -/
def extractAll (entries : List RawEntry) : List (Int × String) :=
  (entries.map (fun e => extractValue (e.votes.getD 0) e.value)).flatten

/-! ### The ranker/deduplicator (`lingualeo.py:186-196`)

Python's `sorted(pairs, reverse=True)` on `(int, str)` tuples produces
the unique permutation that is sorted by the reflexive descending
lexicographic tuple order `pairGe`. -/

/-- Python string `<=`: lexicographic comparison by Unicode code point
(`ord`, i.e. `Char.toNat`). -/
def charListLe : List Char → List Char → Bool
  | [], _ => true
  | _ :: _, [] => false
  | a :: as, b :: bs =>
    if a = b then charListLe as bs else decide (a.toNat < b.toNat)

theorem charToNat_injective {a b : Char} (h : a.toNat = b.toNat) : a = b :=
  Char.ext (UInt32.ext h)

theorem charListLe_total : ∀ x y : List Char,
    charListLe x y = true ∨ charListLe y x = true := by
  intro x
  induction x with
  | nil => intro y; exact Or.inl rfl
  | cons a as ih =>
    intro y
    cases y with
    | nil => exact Or.inr rfl
    | cons b bs =>
      by_cases hab : a = b
      · subst hab
        simpa [charListLe] using ih bs
      · rcases Nat.lt_trichotomy a.toNat b.toNat with h | h | h
        · exact Or.inl (by simp [charListLe, hab, h])
        · exact absurd (charToNat_injective h) hab
        · refine Or.inr ?_
          have hba : b ≠ a := fun hh => hab hh.symm
          simp [charListLe, hba, h]

theorem charListLe_trans : ∀ x y z : List Char,
    charListLe x y = true → charListLe y z = true → charListLe x z = true := by
  intro x
  induction x with
  | nil => intro y z _ _; rfl
  | cons a as ih =>
    intro y z hxy hyz
    cases y with
    | nil => simp [charListLe] at hxy
    | cons b bs =>
      cases z with
      | nil => simp [charListLe] at hyz
      | cons c cs =>
        simp only [charListLe] at hxy hyz ⊢
        by_cases hab : a = b
        · subst hab
          by_cases hbc : a = c
          · subst hbc
            simp only [if_pos rfl] at hxy hyz ⊢
            exact ih bs cs hxy hyz
          · simp only [if_neg hbc] at hyz ⊢
            simpa [if_pos rfl] using hyz
        · by_cases hbc : b = c
          · subst hbc
            simp only [if_neg hab] at hxy ⊢
            exact hxy
          · simp only [if_neg hab] at hxy
            simp only [if_neg hbc] at hyz
            have hac : a.toNat < c.toNat :=
              Nat.lt_trans (of_decide_eq_true hxy) (of_decide_eq_true hyz)
            have hane : a ≠ c := fun hh => by
              subst hh
              exact Nat.lt_irrefl _ hac
            simp [if_neg hane, hac]

theorem charListLe_antisymm : ∀ x y : List Char,
    charListLe x y = true → charListLe y x = true → x = y := by
  intro x
  induction x with
  | nil =>
    intro y _ hyx
    cases y with
    | nil => rfl
    | cons b bs => simp [charListLe] at hyx
  | cons a as ih =>
    intro y hxy hyx
    cases y with
    | nil => simp [charListLe] at hxy
    | cons b bs =>
      by_cases hab : a = b
      · subst hab
        simp only [charListLe, if_pos rfl] at hxy hyx
        rw [ih bs hxy hyx]
      · have hba : b ≠ a := fun hh => hab hh.symm
        simp only [charListLe, if_neg hab] at hxy
        simp only [charListLe, if_neg hba] at hyx
        exact absurd (Nat.lt_trans (of_decide_eq_true hxy) (of_decide_eq_true hyx))
          (Nat.lt_irrefl _)

/-- Python `<=` on strings. -/
def strLe (a b : String) : Prop := charListLe a.data b.data = true

instance : DecidableRel strLe := fun a b =>
  inferInstanceAs (Decidable (charListLe a.data b.data = true))

/-- `a` comes no later than `b` in `sorted(..., reverse=True)` order on
`(votes, word)` tuples: greater votes first, ties by descending string
comparison (Python tuple comparison, reversed and made reflexive). -/
def pairGe (a b : Int × String) : Prop :=
  b.1 < a.1 ∨ (a.1 = b.1 ∧ strLe b.2 a.2)

instance : DecidableRel pairGe := fun a b =>
  inferInstanceAs (Decidable (b.1 < a.1 ∨ (a.1 = b.1 ∧ strLe b.2 a.2)))

instance : IsTotal (Int × String) pairGe := by
  constructor
  intro a b
  rcases lt_trichotomy a.1 b.1 with h | h | h
  · exact Or.inr (Or.inl h)
  · rcases charListLe_total a.2.data b.2.data with h2 | h2
    · exact Or.inr (Or.inr ⟨h.symm, h2⟩)
    · exact Or.inl (Or.inr ⟨h, h2⟩)
  · exact Or.inl (Or.inl h)

instance : IsTrans (Int × String) pairGe := by
  constructor
  intro a b c hab hbc
  rcases hab with h1 | ⟨h1, h1s⟩
  · rcases hbc with h2 | ⟨h2, _⟩
    · exact Or.inl (lt_trans h2 h1)
    · exact Or.inl (h2 ▸ h1)
  · rcases hbc with h2 | ⟨h2, h2s⟩
    · exact Or.inl (h1 ▸ h2)
    · exact Or.inr ⟨h1.trans h2, charListLe_trans _ _ _ h2s h1s⟩

instance : IsAntisymm (Int × String) pairGe := by
  constructor
  intro a b hab hba
  rcases hab with h1 | ⟨h1, h1s⟩
  · rcases hba with h2 | ⟨h2, _⟩
    · exact absurd (lt_trans h1 h2) (lt_irrefl _)
    · exact absurd (h2 ▸ h1) (lt_irrefl _)
  · rcases hba with h2 | ⟨h2, h2s⟩
    · exact absurd (h1 ▸ h2) (lt_irrefl _)
    · have hs : a.2.data = b.2.data := charListLe_antisymm _ _ h2s h1s
      exact Prod.ext h1 (String.ext hs)

/-- The deduplication loop (`lingualeo.py:193-196`):
```
twords = []
for _, tword in sorted_pairs:
    if tword not in twords:
        twords.append(tword)
```
-/
def dedupPass (acc : List String) : List (Int × String) → List String
  | [] => acc
  | p :: rest =>
    if p.2 ∈ acc then dedupPass acc rest else dedupPass (acc ++ [p.2]) rest

/-- `sorted(pairs, reverse=True)` followed by the dedup loop: the full
ranker/deduplicator producing `twords`. -/
def rank (pairs : List (Int × String)) : List String :=
  dedupPass [] (List.insertionSort pairGe pairs)

/-! ### YAML values and config dictionaries (`meld_configs`, `read_configs`)

A YAML document is modelled as an ordered association list of string keys
to values (Python 3.7+ dicts preserve insertion order).  `Value.null`
stands for Python `None`. -/

/-- A YAML scalar one nesting level down.  Modelling restriction: the
config files of this program nest at most one level (lists of scalars,
mappings of scalars), so list elements and inner mapping values are
scalars here. -/
inductive Scalar where
  | null : Scalar
  | bool (b : Bool) : Scalar
  | int (n : Int) : Scalar
  | str (s : String) : Scalar
deriving DecidableEq

inductive Value where
  | null : Value
  | bool (b : Bool) : Value
  | int (n : Int) : Value
  | str (s : String) : Value
  | list (l : List Scalar) : Value
  | dict (d : List (String × Scalar)) : Value
deriving DecidableEq

/-- A Python dict of options, in insertion order. -/
abbrev Dict := List (String × Value)

/-- Python truthiness of a value (`if v:`). -/
def truthy : Value → Bool
  | .null => false
  | .bool b => b
  | .int n => !(n == 0)
  | .str s => !(s == "")
  | .list l => !l.isEmpty
  | .dict d => !d.isEmpty

/-- Truthiness of `d.get(k)` (missing key gives `None`, which is falsy). -/
def truthyO : Option Value → Bool
  | none => false
  | some v => truthy v

/-- `d.get(k)` / `k in d`. -/
def alGet (d : List (String × α)) (k : String) : Option α :=
  (List.find? (fun p => p.1 = k) d).map (fun p => p.2)

/-- `d[k] = v`: update an existing key in place, else append. -/
def alSet : List (String × α) → String → α → List (String × α)
  | [], k, v => [(k, v)]
  | p :: rest, k, v =>
    if p.1 = k then (k, v) :: rest else p :: alSet rest k v

/-- `d.update(new)`, one assignment per entry of `new` in order. -/
def dictUpdate (d : List (String × α)) : List (String × α) → List (String × α)
  | [] => d
  | p :: rest => dictUpdate (alSet d p.1 p.2) rest

/-- `list(set(values))` keeping first occurrences.  CPython's set
iteration order is unspecified; no theorem below depends on the order of
the deduplicated list, only on its membership and (non)emptiness. -/
def vdedupGo (acc : List Scalar) : List Scalar → List Scalar
  | [] => acc
  | v :: rest =>
    if v ∈ acc then vdedupGo acc rest else vdedupGo (acc ++ [v]) rest

def vdedup (l : List Scalar) : List Scalar := vdedupGo [] l

/-- One iteration of the `meld_configs` inner loop
(`lingualeo.py:63-73`), for an already-filtered (truthy) entry.
`none` models the `AttributeError` Python raises when `extend`/`update`
is applied to an existing value of the wrong shape. -/
def meldStep (res : Dict) (kv : String × Value) : Option Dict :=
  match kv.2 with
  | Value.list l =>
    match alGet res kv.1 with
    | none => some (alSet res kv.1 (Value.list (vdedup l)))
    | some (Value.list old) => some (alSet res kv.1 (Value.list (vdedup (old ++ l))))
    | some _ => none
  | Value.dict dd =>
    match alGet res kv.1 with
    | none => some (alSet res kv.1 (Value.dict (dictUpdate [] dd)))
    | some (Value.dict old) => some (alSet res kv.1 (Value.dict (dictUpdate old dd)))
    | some _ => none
  | v => some (alSet res kv.1 v)

/-- The `for key, value in option.items()` loop over filtered entries. -/
def meldList (res : Dict) : List (String × Value) → Option Dict
  | [] => some res
  | kv :: rest =>
    match meldStep res kv with
    | none => none
    | some r => meldList r rest

/-- `meld_configs(result, option)` (`lingualeo.py:59-74`) for a single
`option` source: falsy values are filtered out first
(`option = {k: v for k, v in option.items() if v}`), then each remaining
entry is melded into `result`. -/
def meldOne (res : Dict) (option : Dict) : Option Dict :=
  meldList res (List.filter (fun kv => truthy kv.2) option)

/-- `read_configs` (`lingualeo.py:77-82`) after the files have been read:
fold `meld_configs` over the per-file dictionaries, starting from `{}`. -/
def readConfigsModel (res : Dict) : List Dict → Option Dict
  | [] => some res
  | cfg :: rest =>
    match meldOne res cfg with
    | none => none
    | some r => readConfigsModel r rest

/-- `read_config` (`lingualeo.py:50-56`): a failed read or parse
(`none`) degrades to the empty config. -/
def readConfig (r : Option Dict) : Dict := r.getD []

/-- `read_configs` over raw per-file read results (`none` = the file
could not be read or parsed). -/
def readConfigsRun (reads : List (Option Dict)) : Option Dict :=
  readConfigsModel [] (reads.map readConfig)

/-! ### `prepare_options` (`lingualeo.py:115-135`)

The argparse `Namespace`, after
`{k: v for k, v in vars(parser.parse_args()).items() if v is not None}`:
the four `store_true` flags and the positional `word` are always present
(`False` is not `None`); `email`, `password`, `config`, `player` are
present only when given on the command line. -/

structure Args where
  email : Option String
  password : Option String
  config : Option String
  add : Bool
  sound : Bool
  debug : Bool
  force : Bool
  word : String
  player : Option String

def optEntry (k : String) : Option String → Dict
  | none => []
  | some s => [(k, Value.str s)]

/-- `args_options` as a dict, in `vars()` (= argument registration)
order: email, password, config, add, sound, debug, force, word, player. -/
def argsDict (a : Args) : Dict :=
  optEntry "email" a.email ++ optEntry "password" a.password ++
    optEntry "config" a.config ++
    [("add", Value.bool a.add), ("sound", Value.bool a.sound),
     ("debug", Value.bool a.debug), ("force", Value.bool a.force),
     ("word", Value.str a.word)] ++ optEntry "player" a.player

/-- Python `x or y` where `y` came from `d.get(...)` (so may be `None`). -/
def pyOrV (x : Value) (y : Option Value) : Value :=
  if truthy x then x else y.getD Value.null

/-- Lines 123-131 of `prepare_options`: remember the config-merged
booleans, overlay the command-line options, then OR the four flags back.
`options['add']` etc. cannot raise here because the four keys are always
present in `args_options`; the `getD Value.null` default is never used. -/
def prepareFinal (a : Args) (merged : Dict) : Dict :=
  let shouldAdd := alGet merged "add"
  let shouldDebug := alGet merged "debug"
  let shouldForce := alGet merged "force"
  let shouldSound := alGet merged "sound"
  let updated := dictUpdate merged (argsDict a)
  let o1 := alSet updated "add" (pyOrV ((alGet updated "add").getD Value.null) shouldAdd)
  let o2 := alSet o1 "debug" (pyOrV ((alGet o1 "debug").getD Value.null) shouldDebug)
  let o3 := alSet o2 "force" (pyOrV ((alGet o2 "force").getD Value.null) shouldForce)
  alSet o3 "sound" (pyOrV ((alGet o3 "sound").getD Value.null) shouldSound)

/-! ### The HTTP steps and the run's control flow
(`lingualeo_auth`, `lingualeo_translate`, `lingualeo_add`,
`process_translating`, `main`) -/

/-- Truthiness of `json.get('error_msg')`. -/
def truthyMsg : Option String → Bool
  | none => false
  | some s => !(s == "")

structure AuthResponse where
  status : Nat
  errorMsg : Option String
deriving DecidableEq

structure TranslateResponse where
  status : Nat
  errorMsg : Option String
  translate : List RawEntry
  isUser : Bool
  soundUrl : Option String

structure AddResponse where
  status : Nat
  errorMsg : Option String
deriving DecidableEq

/-- `lingualeo_auth` (`lingualeo.py:150-166`): `None` on a non-200
status or a service-reported error message. -/
def lingualeoAuth (r : AuthResponse) : Option Unit :=
  if r.status ≠ 200 then none
  else if truthyMsg r.errorMsg then none
  else some ()

/-- The value `lingualeo_translate` returns on success:
`(is_exist, twords, sound_url)`. -/
abbrev TransResult := Bool × List String × Option String

/-- `lingualeo_translate` (`lingualeo.py:169-201`): `None` on a non-200
status, a service error message, or an empty raw `translate` list;
otherwise the ranked, deduplicated word list with the flags. -/
def lingualeoTranslate (r : TranslateResponse) : Option TransResult :=
  if r.status ≠ 200 then none
  else if truthyMsg r.errorMsg then none
  else if r.translate.isEmpty then none
  else some (r.isUser, rank (extractAll r.translate), r.soundUrl)

/-- `lingualeo_add` (`lingualeo.py:204-221`). -/
def lingualeoAdd (r : AddResponse) : Option AddResponse :=
  if r.status ≠ 200 then none
  else if truthyMsg r.errorMsg then none
  else some r

/-- The settings `process_translating` receives. -/
structure Options where
  word : String
  email : String
  password : String
  player : Option String
  add : Bool
  debug : Bool
  force : Bool
  sound : Bool

/-- What `process_translating` returns on success: either the add-word
response or the translate result. -/
inductive ProcResult where
  | added (r : AddResponse) : ProcResult
  | translated (t : TransResult) : ProcResult

/-- The externally visible operations of one run, in order of issue. -/
inductive Event where
  | auth : Event
  | translate : Event
  | sound : Event
  | add : Event
deriving DecidableEq

/-- `process_translating` (`lingualeo.py:230-252`), instrumented with
the sequence of operations it issues.  The response records stand for
what the service would answer if the corresponding call is made. -/
def processTracked (o : Options) (ar : AuthResponse) (tr : TranslateResponse)
    (adr : AddResponse) : List Event × Option ProcResult :=
  match lingualeoAuth ar with
  | none => ([Event.auth], none)
  | some _ =>
    match lingualeoTranslate tr with
    | none => ([Event.auth, Event.translate], none)
    | some res =>
      let soundEvents : List Event :=
        if o.sound then
          match o.player with
          | none => []
          | some _ => [Event.sound]
        else []
      if o.add && (!res.1 || o.force) && !res.2.1.isEmpty then
        ([Event.auth, Event.translate] ++ soundEvents ++ [Event.add],
          (lingualeoAdd adr).map ProcResult.added)
      else
        ([Event.auth, Event.translate] ++ soundEvents,
          some (ProcResult.translated res))

/-- The return value of `process_translating`. -/
def processTranslating (o : Options) (ar : AuthResponse) (tr : TranslateResponse)
    (adr : AddResponse) : Option ProcResult :=
  (processTracked o ar tr adr).2

/-- `main` (`lingualeo.py:341-347`): exit code 1 when `prepare_options`
or `process_translating` comes back with `None`, 0 otherwise. -/
def mainExit (opts : Option Options) (ar : AuthResponse) (tr : TranslateResponse)
    (adr : AddResponse) : Nat :=
  match opts with
  | none => 1
  | some o =>
    match processTranslating o ar tr adr with
    | none => 1
    | some _ => 0

/-! ### Helper lemmas -/

theorem dedupPass_nodup : ∀ (l : List (Int × String)) (acc : List String),
    acc.Nodup → (dedupPass acc l).Nodup := by
  intro l
  induction l with
  | nil => intro acc h; exact h
  | cons p rest ih =>
    intro acc h
    simp only [dedupPass]
    by_cases hm : p.2 ∈ acc
    · rw [if_pos hm]
      exact ih acc h
    · rw [if_neg hm]
      refine ih _ ?_
      rw [List.nodup_append]
      refine ⟨h, List.nodup_singleton _, ?_⟩
      intro x hx hx2
      rw [List.mem_singleton] at hx2
      subst hx2
      exact hm hx

theorem head_dropWhile_not (f : Char → Bool) : ∀ (l : List Char) (c : Char),
    (l.dropWhile f).head? = some c → f c = false := by
  intro l
  induction l with
  | nil => intro c h; simp [List.dropWhile] at h
  | cons a rest ih =>
    intro c h
    rw [List.dropWhile_cons] at h
    by_cases hfa : f a = true
    · rw [if_pos hfa] at h
      exact ih c h
    · rw [if_neg hfa] at h
      simp only [List.head?_cons, Option.some.injEq] at h
      subst h
      exact Bool.eq_false_iff.mpr hfa

theorem pyStripBy_decomp (f : Char → Bool) (l : List Char) :
    ∃ pre suf : List Char,
      l = pre ++ pyStripBy f l ++ suf ∧
      (∀ c ∈ pre, f c = true) ∧ (∀ c ∈ suf, f c = true) := by
  refine ⟨l.takeWhile f, ((l.dropWhile f).reverse.takeWhile f).reverse, ?_, ?_, ?_⟩
  · conv_lhs => rw [← List.takeWhile_append_dropWhile f l]
    rw [List.append_assoc]
    congr 1
    conv_lhs => rw [← List.reverse_reverse (l.dropWhile f),
      ← List.takeWhile_append_dropWhile f (l.dropWhile f).reverse]
    rw [List.reverse_append]
    rfl
  · intro c hc; exact List.mem_takeWhile_imp hc
  · intro c hc
    rw [List.mem_reverse] at hc
    exact List.mem_takeWhile_imp hc

theorem pyStripBy_head (f : Char → Bool) (l : List Char) (c : Char)
    (h : (pyStripBy f l).head? = some c) : f c = false := by
  have hm : pyStripBy f l ++ ((l.dropWhile f).reverse.takeWhile f).reverse
      = l.dropWhile f := by
    conv_rhs => rw [← List.reverse_reverse (l.dropWhile f),
      ← List.takeWhile_append_dropWhile f (l.dropWhile f).reverse]
    rw [List.reverse_append]
    rfl
  have hh : (l.dropWhile f).head? = some c := by
    rw [← hm, List.head?_append, h]
    rfl
  exact head_dropWhile_not f l c hh

theorem pyStripBy_last (f : Char → Bool) (l : List Char) (c : Char)
    (h : (pyStripBy f l).getLast? = some c) : f c = false := by
  unfold pyStripBy at h
  rw [List.getLast?_reverse] at h
  exact head_dropWhile_not f (l.dropWhile f).reverse c h

theorem filterMap_if_eq_filter_map (p : α → Bool) (g : α → β) : ∀ l : List α,
    l.filterMap (fun x => if p x then some (g x) else none) = (l.filter p).map g := by
  intro l
  induction l with
  | nil => rfl
  | cons a rest ih =>
    by_cases hp : p a = true
    · simp [List.filterMap_cons, List.filter_cons, hp, ih]
    · simp [List.filterMap_cons, List.filter_cons, hp, ih]

/-! ### The claims -/

/-- C1: across all translation entries for one word, the ranker sorts the
`(votes, candidate)` pairs in descending order of votes, breaking
equal-votes ties by descending lexicographic comparison of the candidate
string, then keeps the first occurrence of each distinct candidate in a
single left-to-right pass.  Formally: the ranked list equals the dedup
pass over any `pairGe`-sorted permutation of the input (such a sorted
arrangement is unique since `pairGe` is antisymmetric), the output never
repeats a candidate, and the two concrete examples of the spec hold. -/
theorem C1_rank_sorts_and_dedups :
    (∀ pairs s : List (Int × String), s.Perm pairs → List.Sorted pairGe s →
      rank pairs = dedupPass [] s)
    ∧ (∀ pairs : List (Int × String), (rank pairs).Nodup)
    ∧ rank [((3 : Int), "zeta"), (3, "alpha")] = ["zeta", "alpha"]
    ∧ rank [((5 : Int), "apple"), (10, "banana"), (1, "cherry")] =
        ["banana", "apple", "cherry"] := by
  refine ⟨?_, ?_, by decide, by decide⟩
  · intro pairs s hperm hsorted
    have h1 : (List.insertionSort pairGe pairs).Perm s :=
      (List.perm_insertionSort pairGe pairs).trans hperm.symm
    have h2 : List.insertionSort pairGe pairs = s :=
      List.eq_of_perm_of_sorted h1 (List.sorted_insertionSort pairGe pairs) hsorted
    unfold rank
    rw [h2]
  · intro pairs
    exact dedupPass_nodup _ [] List.nodup_nil

theorem C1_rank_sorts_and_dedups_witness :
    rank [((3 : Int), "zeta"), (3, "alpha")] =
      dedupPass [] [((3 : Int), "zeta"), (3, "alpha")] :=
  C1_rank_sorts_and_dedups.1 _ _ (List.Perm.refl _) (by decide)

/-- C2, counterexample: the code's cleaning step is
`word.strip(u' ;:,\n')`; on the spec's example fragment it yields
`"Привет ."` (inner spacing, case and the Cyrillic text untouched), not
the lower-cased normalized `"привет."` the claim states. -/
theorem C2_cleaning_counterexample :
    String.mk (cleanFrag "  Привет . ".data) = "Привет ." ∧
    String.mk (cleanFrag "  Привет . ".data) ≠ "привет." := by
  constructor
  · decide
  · decide

/-- C2, amended: the cleaning step only strips leading and trailing
characters from the set space/semicolon/colon/comma/newline.  It keeps
every character outside that set, does no alphabet filtering, whitespace
collapsing, period normalization or lower-casing: the input is exactly
a stripped prefix, the cleaned fragment, and a stripped suffix, and the
cleaned fragment neither starts nor ends with a strippable character.
On `"  Привет . "` it yields `"Привет ."`. -/
theorem C2_cleaning_strips_only :
    (∀ l : List Char, ∃ pre suf : List Char,
      l = pre ++ cleanFrag l ++ suf ∧
      (∀ c ∈ pre, inStripSet c = true) ∧
      (∀ c ∈ suf, inStripSet c = true) ∧
      (∀ c : Char, (cleanFrag l).head? = some c → inStripSet c = false) ∧
      (∀ c : Char, (cleanFrag l).getLast? = some c → inStripSet c = false))
    ∧ String.mk (cleanFrag "  Привет . ".data) = "Привет ." := by
  refine ⟨?_, by decide⟩
  intro l
  obtain ⟨pre, suf, hdec, hpre, hsuf⟩ := pyStripBy_decomp inStripSet l
  exact ⟨pre, suf, hdec, hpre, hsuf,
    fun c hc => pyStripBy_head inStripSet l c hc,
    fun c hc => pyStripBy_last inStripSet l c hc⟩

theorem C2_cleaning_strips_only_witness :
    ∃ pre suf : List Char,
      "  Привет . ".data = pre ++ cleanFrag "  Привет . ".data ++ suf ∧
      (∀ c ∈ pre, inStripSet c = true) ∧
      (∀ c ∈ suf, inStripSet c = true) ∧
      (∀ c : Char, (cleanFrag "  Привет . ".data).head? = some c → inStripSet c = false) ∧
      (∀ c : Char, (cleanFrag "  Привет . ".data).getLast? = some c → inStripSet c = false) :=
  C2_cleaning_strips_only.1 "  Привет . ".data

/-- C3, counterexample: on a raw entry with value `"a, a, b"` the
extractor does not yield `["a","a","b"]` — every fragment has
whitespace-stripped length 1, below the `> 2` threshold, so all are
discarded — and consequently the ranker does not produce `["a","b"]`. -/
theorem C3_extract_counterexample :
    (extractValue 1 "a, a, b").map Prod.snd ≠ ["a", "a", "b"] ∧
    rank (extractValue 1 "a, a, b") ≠ ["a", "b"] ∧
    rank [((1 : Int), "a"), (1, "a"), (1, "b")] = ["b", "a"] := by
  refine ⟨by decide, by decide, by decide⟩

/-- C3, amended: for raw entries with value `"a, a, b"` (any votes), the
extractor discards all fragments (each has cleaned length ≤ 2), yielding
no candidates, and the ranker/deduplicator therefore returns `[]`. -/
theorem C3_short_fragments_all_discarded :
    ∀ v : Int, extractValue v "a, a, b" = [] ∧ rank (extractValue v "a, a, b") = [] :=
  fun _ => ⟨rfl, rfl⟩

/-- C4: the extractor's filter discards a fragment whose
whitespace-stripped length is at most 1; the code implements the
stricter variant, discarding a fragment whose stripped length is at most
2 or whose first stripped character is a digit, and the candidates are
exactly the cleaned versions of the fragments that pass the filter. -/
theorem C4_fragment_filter :
    (∀ (votes : Int) (value : String),
      extractValue votes value =
        ((reSplit (stripWs value.data)).filter keepFrag).map
          (fun w => (votes, String.mk (cleanFrag w))))
    ∧ (∀ w : List Char, (stripWs w).length ≤ 1 → keepFrag w = false)
    ∧ (∀ w : List Char, (stripWs w).length ≤ 2 → keepFrag w = false)
    ∧ (∀ (w : List Char) (c : Char) (cs : List Char),
        stripWs w = c :: cs → c.isDigit = true → keepFrag w = false)
    ∧ (∀ w : List Char, keepFrag w = true →
        2 < (stripWs w).length ∧
        ∀ (c : Char) (cs : List Char), stripWs w = c :: cs → c.isDigit = false) := by
  refine ⟨?_, ?_, ?_, ?_, ?_⟩
  · intro votes value
    exact filterMap_if_eq_filter_map keepFrag _ _
  · intro w h
    have h2 : (stripWs w).length ≤ 2 := Nat.le_trans h (by norm_num)
    cases hs : stripWs w with
    | nil => simp [keepFrag, hs]
    | cons c cs =>
      rw [hs] at h2
      simp only [keepFrag, hs]
      rw [decide_eq_false (Nat.not_lt.mpr h2)]
      rfl
  · intro w h2
    cases hs : stripWs w with
    | nil => simp [keepFrag, hs]
    | cons c cs =>
      rw [hs] at h2
      simp only [keepFrag, hs]
      rw [decide_eq_false (Nat.not_lt.mpr h2)]
      rfl
  · intro w c cs hs hd
    simp [keepFrag, hs, hd]
  · intro w hk
    cases hs : stripWs w with
    | nil => rw [keepFrag, hs] at hk; cases hk
    | cons c cs =>
      rw [keepFrag, hs] at hk
      rw [Bool.and_eq_true, decide_eq_true_eq] at hk
      constructor
      · exact hk.1
      · intro c' cs' hs'
        cases hs'
        simpa using hk.2

theorem C4_fragment_filter_witness :
    keepFrag "a".data = false ∧ keepFrag "ab".data = false ∧
    keepFrag " 1abc ".data = false ∧
    (2 < (stripWs " abcd ".data).length ∧
      ∀ (c : Char) (cs : List Char), stripWs " abcd ".data = c :: cs → c.isDigit = false) :=
  ⟨C4_fragment_filter.2.1 _ (by decide),
   C4_fragment_filter.2.2.1 _ (by decide),
   C4_fragment_filter.2.2.2.1 _ '1' "abc".data (by decide) (by decide),
   C4_fragment_filter.2.2.2.2 _ (by decide)⟩

theorem lingualeoTranslate_none_of_empty (tr : TranslateResponse)
    (h : tr.translate = []) : lingualeoTranslate tr = none := by
  unfold lingualeoTranslate
  rw [h]
  split
  · rfl
  · split
    · rfl
    · rfl

theorem processTranslating_none_of_translate_none (o : Options) (ar : AuthResponse)
    (tr : TranslateResponse) (adr : AddResponse) (h : lingualeoTranslate tr = none) :
    processTranslating o ar tr adr = none := by
  unfold processTranslating processTracked
  cases ha : lingualeoAuth ar <;> simp [h]

/-- C5: a run in which the translate call succeeds at the HTTP level but
returns zero raw translation entries is treated as a translation failure
and exits with code 1; in general the exit code is 0 exactly when the
options resolved and the whole `process_translating` run succeeded, and
it is always 0 or 1. -/
theorem C5_empty_translate_is_failure :
    (∀ (opts : Option Options) (ar : AuthResponse) (tr : TranslateResponse)
      (adr : AddResponse), tr.translate = [] → mainExit opts ar tr adr = 1)
    ∧ (∀ (opts : Option Options) (ar : AuthResponse) (tr : TranslateResponse)
        (adr : AddResponse), mainExit opts ar tr adr = 0 ↔
          ∃ o r, opts = some o ∧ processTranslating o ar tr adr = some r)
    ∧ (∀ (opts : Option Options) (ar : AuthResponse) (tr : TranslateResponse)
        (adr : AddResponse), mainExit opts ar tr adr = 0 ∨ mainExit opts ar tr adr = 1) := by
  refine ⟨?_, ?_, ?_⟩
  · intro opts ar tr adr h
    have ht := lingualeoTranslate_none_of_empty tr h
    cases opts with
    | none => rfl
    | some o =>
      simp [mainExit, processTranslating_none_of_translate_none o ar tr adr ht]
  · intro opts ar tr adr
    cases opts with
    | none => simp [mainExit]
    | some o =>
      cases hp : processTranslating o ar tr adr with
      | none => simp [mainExit, hp]
      | some r => simp [mainExit, hp]
  · intro opts ar tr adr
    cases opts with
    | none => exact Or.inr rfl
    | some o =>
      cases hp : processTranslating o ar tr adr with
      | none => exact Or.inr (by simp [mainExit, hp])
      | some r => exact Or.inl (by simp [mainExit, hp])

theorem C5_empty_translate_is_failure_witness :
    mainExit (some ⟨"hello", "e", "p", none, false, false, false, false⟩)
      ⟨200, none⟩ ⟨200, none, [], false, none⟩ ⟨200, none⟩ = 1 :=
  C5_empty_translate_is_failure.1 _ _ _ _ rfl

/-- C7: a config file whose read or parse fails contributes an empty
config: melding the empty config changes nothing, and a run with a
failed read produces exactly the merge of the sources with the failed
file replaced by an empty config — equivalently, of the remaining
sources alone.  The failure never aborts the merge by itself. -/
theorem C7_failed_read_degrades_to_empty :
    (∀ res : Dict, meldOne res [] = some res)
    ∧ (∀ xs ys : List (Option Dict),
        readConfigsRun (xs ++ none :: ys) = readConfigsRun (xs ++ some [] :: ys))
    ∧ (∀ xs ys : List (Option Dict),
        readConfigsRun (xs ++ none :: ys) = readConfigsRun (xs ++ ys)) := by
  have hskip : ∀ (ds : List Dict) (res : Dict) (es : List Dict),
      readConfigsModel res (ds ++ [] :: es) = readConfigsModel res (ds ++ es) := by
    intro ds
    induction ds with
    | nil =>
      intro res es
      simp [readConfigsModel, meldOne, meldList]
    | cons d ds ih =>
      intro res es
      simp only [List.cons_append, readConfigsModel]
      cases meldOne res d with
      | none => rfl
      | some r => exact ih r es
  refine ⟨fun res => rfl, ?_, ?_⟩
  · intro xs ys
    simp [readConfigsRun, readConfig]
  · intro xs ys
    unfold readConfigsRun
    rw [List.map_append, List.map_append, List.map_cons]
    exact hskip (xs.map readConfig) [] (ys.map readConfig)

/-- The sound-step events of `process_translating`: present only when
the sound flag is set and a player is configured. -/
def soundEvents (o : Options) : List Event :=
  if o.sound then
    match o.player with
    | none => []
    | some _ => [Event.sound]
  else []

theorem soundEvents_sublist (o : Options) : (soundEvents o).Sublist [Event.sound] := by
  unfold soundEvents
  cases o.sound
  · simp
  · cases o.player
    · simp
    · simp

theorem add_not_mem_soundEvents (o : Options) : Event.add ∉ soundEvents o := by
  unfold soundEvents
  cases o.sound
  · simp
  · cases o.player
    · simp
    · simp

/-- C8: the operations of one run are issued strictly in the order
authenticate, translate, optional sound playback, optional add-word;
the add-word call happens only when authenticate and translate both
succeeded; an authentication failure stops the run after the
authenticate call, and a translate failure stops it after the translate
call. -/
theorem C8_strict_operation_order :
    ∀ (o : Options) (ar : AuthResponse) (tr : TranslateResponse) (adr : AddResponse),
      (processTracked o ar tr adr).1.Sublist
        [Event.auth, Event.translate, Event.sound, Event.add]
      ∧ (Event.add ∈ (processTracked o ar tr adr).1 →
          lingualeoAuth ar ≠ none ∧ lingualeoTranslate tr ≠ none)
      ∧ (lingualeoAuth ar = none → (processTracked o ar tr adr).1 = [Event.auth])
      ∧ (lingualeoAuth ar ≠ none → lingualeoTranslate tr = none →
          (processTracked o ar tr adr).1 = [Event.auth, Event.translate]) := by
  intro o ar tr adr
  cases ha : lingualeoAuth ar with
  | none =>
    have hT : (processTracked o ar tr adr).1 = [Event.auth] := by
      simp [processTracked, ha]
    refine ⟨?_, ?_, fun _ => hT, fun hne _ => absurd rfl hne⟩
    · rw [hT]; decide
    · rw [hT]
      intro hmem
      exact absurd hmem (by decide)
  | some u =>
    cases htr : lingualeoTranslate tr with
    | none =>
      have hT : (processTracked o ar tr adr).1 = [Event.auth, Event.translate] := by
        simp [processTracked, ha, htr]
      refine ⟨?_, ?_, fun h => Option.noConfusion h, fun _ _ => hT⟩
      · rw [hT]; decide
      · rw [hT]
        intro hmem
        exact absurd hmem (by decide)
    | some res =>
      refine ⟨?_, fun _ => ⟨fun h => Option.noConfusion h, fun h => Option.noConfusion h⟩,
        fun h => Option.noConfusion h, fun _ h => Option.noConfusion h⟩
      have hT : (processTracked o ar tr adr).1 =
          [Event.auth, Event.translate] ++ soundEvents o ++
            (if o.add && (!res.1 || o.force) && !res.2.1.isEmpty then [Event.add]
              else []) := by
        simp only [processTracked, ha, htr, soundEvents]
        by_cases hc : (o.add && (!res.1 || o.force) && !res.2.1.isEmpty) = true
        · rw [if_pos hc, if_pos hc]
        · rw [if_neg hc, if_neg hc, List.append_nil]
      rw [hT]
      have h1 : ([Event.auth, Event.translate] : List Event).Sublist
          [Event.auth, Event.translate] := List.Sublist.refl _
      have h2 : (if o.add && (!res.1 || o.force) && !res.2.1.isEmpty then [Event.add]
          else [] : List Event).Sublist [Event.add] := by
        split
        · exact List.Sublist.refl _
        · simp
      have := (h1.append (soundEvents_sublist o)).append h2
      simpa using this

theorem C8_strict_operation_order_witness :
    (processTracked ⟨"hello", "e", "p", none, true, false, false, false⟩
        ⟨404, none⟩ ⟨200, none, [⟨some 1, "ghijk"⟩], false, none⟩ ⟨200, none⟩).1 =
      [Event.auth]
    ∧ (lingualeoAuth ⟨200, none⟩ ≠ none ∧
        lingualeoTranslate ⟨200, none, [⟨some 1, "ghijk"⟩], false, none⟩ ≠ none)
    ∧ (processTracked ⟨"hello", "e", "p", none, true, false, false, false⟩
        ⟨200, none⟩ ⟨500, none, [], false, none⟩ ⟨200, none⟩).1 =
      [Event.auth, Event.translate] :=
  ⟨(C8_strict_operation_order _ _ _ _).2.2.1 rfl,
   (C8_strict_operation_order ⟨"hello", "e", "p", none, true, false, false, false⟩
      ⟨200, none⟩ ⟨200, none, [⟨some 1, "ghijk"⟩], false, none⟩ ⟨200, none⟩).2.1
      (by decide),
   (C8_strict_operation_order _ _ _ _).2.2.2 (by decide) rfl⟩

/-- C9: after a successful authenticate and translate, the add-word call
is issued if and only if the add option is set, the word is new to the
user's dictionary or the force option is set, and the ranked candidate
list is non-empty; when the call is skipped for any of these reasons the
run returns the translate result and exits with code 0. -/
theorem C9_add_word_condition :
    ∀ (o : Options) (ar : AuthResponse) (tr : TranslateResponse) (adr : AddResponse)
      (res : TransResult),
      lingualeoAuth ar ≠ none → lingualeoTranslate tr = some res →
      ((Event.add ∈ (processTracked o ar tr adr).1 ↔
        (o.add = true ∧ (res.1 = false ∨ o.force = true) ∧ res.2.1 ≠ []))
      ∧ (¬(o.add = true ∧ (res.1 = false ∨ o.force = true) ∧ res.2.1 ≠ []) →
          processTranslating o ar tr adr = some (ProcResult.translated res) ∧
          mainExit (some o) ar tr adr = 0)) := by
  intro o ar tr adr res hane htr
  cases ha : lingualeoAuth ar with
  | none => exact absurd ha hane
  | some u =>
    have hbool : (o.add && (!res.1 || o.force) && !res.2.1.isEmpty) = true ↔
        (o.add = true ∧ (res.1 = false ∨ o.force = true) ∧ res.2.1 ≠ []) := by
      simp only [Bool.and_eq_true, Bool.or_eq_true, Bool.not_eq_true',
        List.isEmpty_eq_false]
      tauto
    by_cases hc : (o.add && (!res.1 || o.force) && !res.2.1.isEmpty) = true
    · refine ⟨⟨fun _ => hbool.mp hc, fun _ => ?_⟩, fun hnc => absurd (hbool.mp hc) hnc⟩
      have hT : (processTracked o ar tr adr).1 =
          [Event.auth, Event.translate] ++ soundEvents o ++ [Event.add] := by
        simp only [processTracked, ha, htr, soundEvents]
        rw [if_pos hc]
      rw [hT]
      simp [List.mem_append]
    · have hT : (processTracked o ar tr adr).1 =
          [Event.auth, Event.translate] ++ soundEvents o := by
        simp only [processTracked, ha, htr, soundEvents]
        rw [if_neg hc]
      refine ⟨⟨fun hmem => ?_, fun hp => absurd (hbool.mpr hp) hc⟩, fun _ => ⟨?_, ?_⟩⟩
      · rw [hT] at hmem
        rcases List.mem_append.mp hmem with h1 | h2
        · exact absurd h1 (by decide)
        · exact absurd h2 (add_not_mem_soundEvents o)
      · simp only [processTranslating, processTracked, ha, htr]
        rw [if_neg hc]
      · simp only [mainExit, processTranslating, processTracked, ha, htr]
        rw [if_neg hc]

theorem C9_add_word_condition_witness :
    (Event.add ∈ (processTracked ⟨"hello", "e", "p", none, false, false, false, false⟩
        ⟨200, none⟩ ⟨200, none, [⟨some 1, "ghijk"⟩], false, none⟩ ⟨200, none⟩).1 ↔
      (false = true ∧ (false = false ∨ false = true) ∧ (["ghijk"] : List String) ≠ []))
    ∧ (¬(false = true ∧ (false = false ∨ false = true) ∧ (["ghijk"] : List String) ≠ []) →
        processTranslating ⟨"hello", "e", "p", none, false, false, false, false⟩
          ⟨200, none⟩ ⟨200, none, [⟨some 1, "ghijk"⟩], false, none⟩ ⟨200, none⟩ =
          some (ProcResult.translated (false, ["ghijk"], none)) ∧
        mainExit (some ⟨"hello", "e", "p", none, false, false, false, false⟩)
          ⟨200, none⟩ ⟨200, none, [⟨some 1, "ghijk"⟩], false, none⟩ ⟨200, none⟩ = 0) :=
  C9_add_word_condition ⟨"hello", "e", "p", none, false, false, false, false⟩
    ⟨200, none⟩ ⟨200, none, [⟨some 1, "ghijk"⟩], false, none⟩ ⟨200, none⟩
    (false, ["ghijk"], none) (by decide) (by decide)

/-! ### Association-list and meld lemmas -/

@[simp] theorem truthyO_some (v : Value) : truthyO (some v) = truthy v := rfl

@[simp] theorem truthyO_none : truthyO none = false := rfl

theorem alGet_alSet_self : ∀ (d : List (String × α)) (k : String) (v : α),
    alGet (alSet d k v) k = some v := by
  intro d k v
  induction d with
  | nil => simp [alGet, alSet, List.find?]
  | cons p rest ih =>
    by_cases hp : p.1 = k
    · simp [alSet, hp, alGet, List.find?]
    · simp only [alSet, if_neg hp]
      simp only [alGet] at ih ⊢
      rw [List.find?_cons_of_neg _ (by simpa using hp)]
      exact ih

theorem alGet_alSet_ne : ∀ (d : List (String × α)) (k' k : String) (v : α),
    k ≠ k' → alGet (alSet d k' v) k = alGet d k := by
  intro d k' k v hk
  induction d with
  | nil =>
    simp only [alSet, alGet]
    rw [List.find?_cons_of_neg _ (by simpa using fun h => hk h.symm)]
  | cons p rest ih =>
    by_cases hp : p.1 = k'
    · simp only [alSet, if_pos hp, alGet]
      rw [List.find?_cons_of_neg _ (by simpa using fun h => hk h.symm),
        List.find?_cons_of_neg _ (by simpa using fun h => hk (h.symm.trans hp))]
    · simp only [alSet, if_neg hp]
      by_cases hpk : p.1 = k
      · simp only [alGet]
        rw [List.find?_cons_of_pos _ (by simpa using hpk),
          List.find?_cons_of_pos _ (by simpa using hpk)]
      · simp only [alGet] at ih ⊢
        rw [List.find?_cons_of_neg _ (by simpa using hpk),
          List.find?_cons_of_neg _ (by simpa using hpk)]
        exact ih

theorem alSet_ne_nil (d : List (String × α)) (k : String) (v : α) :
    alSet d k v ≠ [] := by
  cases d with
  | nil => simp [alSet]
  | cons p rest =>
    simp only [alSet]
    split
    · simp
    · simp

theorem dictUpdate_ne_nil : ∀ (kvs d : List (String × α)), d ≠ [] →
    dictUpdate d kvs ≠ [] := by
  intro kvs
  induction kvs with
  | nil => intro d h; exact h
  | cons p rest ih =>
    intro d _
    simp only [dictUpdate]
    exact ih _ (alSet_ne_nil d p.1 p.2)

theorem vdedupGo_length : ∀ (l acc : List Scalar),
    acc.length ≤ (vdedupGo acc l).length := by
  intro l
  induction l with
  | nil => intro acc; simp [vdedupGo]
  | cons v rest ih =>
    intro acc
    simp only [vdedupGo]
    by_cases hv : v ∈ acc
    · rw [if_pos hv]; exact ih acc
    · rw [if_neg hv]
      calc acc.length ≤ (acc ++ [v]).length := by simp
        _ ≤ _ := ih (acc ++ [v])

theorem vdedup_ne_nil (l : List Scalar) (h : l ≠ []) : vdedup l ≠ [] := by
  cases l with
  | nil => exact absurd rfl h
  | cons v rest =>
    unfold vdedup vdedupGo
    rw [if_neg (List.not_mem_nil v)]
    intro hnil
    have := vdedupGo_length rest ([] ++ [v])
    rw [hnil] at this
    simp at this

theorem dictUpdate_cons_ne_nil (d : List (String × α)) (kvs : List (String × α))
    (h : kvs ≠ []) : dictUpdate d kvs ≠ [] := by
  cases kvs with
  | nil => exact absurd rfl h
  | cons p rest =>
    simp only [dictUpdate]
    exact dictUpdate_ne_nil rest _ (alSet_ne_nil d p.1 p.2)

/-- Every successful `meldStep` is an assignment to the entry's key. -/
theorem meldStep_alSet : ∀ (res : Dict) (kv : String × Value) (r : Dict),
    meldStep res kv = some r → ∃ w, r = alSet res kv.1 w := by
  rintro res ⟨key, v⟩ r h
  cases v with
  | null => simp only [meldStep] at h; cases h; exact ⟨_, rfl⟩
  | bool b => simp only [meldStep] at h; cases h; exact ⟨_, rfl⟩
  | int n => simp only [meldStep] at h; cases h; exact ⟨_, rfl⟩
  | str s => simp only [meldStep] at h; cases h; exact ⟨_, rfl⟩
  | list l =>
    simp only [meldStep] at h
    cases hg : alGet res key with
    | none => simp only [hg] at h; cases h; exact ⟨_, rfl⟩
    | some old =>
      simp only [hg] at h
      cases old <;> cases h <;> exact ⟨_, rfl⟩
  | dict dd =>
    simp only [meldStep] at h
    cases hg : alGet res key with
    | none => simp only [hg] at h; cases h; exact ⟨_, rfl⟩
    | some old =>
      simp only [hg] at h
      cases old <;> cases h <;> exact ⟨_, rfl⟩

/-- A successful `meldStep` on a truthy entry leaves a truthy value at
the entry's key. -/
theorem meldStep_self : ∀ (res : Dict) (kv : String × Value) (r : Dict),
    truthy kv.2 = true → meldStep res kv = some r →
    truthyO (alGet r kv.1) = true := by
  rintro res ⟨key, v⟩ r ht h
  cases v with
  | null => exact Bool.noConfusion ht
  | bool b =>
    simp only [meldStep] at h
    cases h
    rw [alGet_alSet_self]
    exact ht
  | int n =>
    simp only [meldStep] at h
    cases h
    rw [alGet_alSet_self]
    exact ht
  | str s =>
    simp only [meldStep] at h
    cases h
    rw [alGet_alSet_self]
    exact ht
  | list l =>
    have hl : l ≠ [] := by
      intro he
      subst he
      exact Bool.noConfusion ht
    simp only [meldStep] at h
    cases hg : alGet res key with
    | none =>
      simp only [hg] at h
      cases h
      rw [alGet_alSet_self, truthyO_some]
      simpa [truthy, List.isEmpty_eq_false] using vdedup_ne_nil l hl
    | some old =>
      simp only [hg] at h
      cases old with
      | list ol =>
        cases h
        rw [alGet_alSet_self, truthyO_some]
        have hol : ol ++ l ≠ [] := by simp [List.append_eq_nil, hl]
        simpa [truthy, List.isEmpty_eq_false] using vdedup_ne_nil _ hol
      | null => cases h
      | bool b => cases h
      | int n => cases h
      | str s => cases h
      | dict dd => cases h
  | dict dd =>
    have hd : dd ≠ [] := by
      intro he
      subst he
      exact Bool.noConfusion ht
    simp only [meldStep] at h
    cases hg : alGet res key with
    | none =>
      simp only [hg] at h
      cases h
      rw [alGet_alSet_self, truthyO_some]
      simpa [truthy, List.isEmpty_eq_false] using dictUpdate_cons_ne_nil [] dd hd
    | some old =>
      simp only [hg] at h
      cases old with
      | dict od =>
        cases h
        rw [alGet_alSet_self, truthyO_some]
        simpa [truthy, List.isEmpty_eq_false] using dictUpdate_cons_ne_nil od dd hd
      | null => cases h
      | bool b => cases h
      | int n => cases h
      | str s => cases h
      | list ol => cases h

theorem meldList_untouched : ∀ (kvs : List (String × Value)) (res res' : Dict),
    meldList res kvs = some res' → ∀ k : String, (∀ v, (k, v) ∉ kvs) →
    alGet res' k = alGet res k := by
  intro kvs
  induction kvs with
  | nil =>
    intro res res' h k _
    cases h
    rfl
  | cons p rest ih =>
    intro res res' h k hk
    simp only [meldList] at h
    cases hstep : meldStep res p with
    | none => simp only [hstep] at h; cases h
    | some r1 =>
      simp only [hstep] at h
      have hkp : k ≠ p.1 := by
        intro he
        subst he
        exact hk p.2 (List.mem_cons_self p rest)
      rw [ih r1 res' h k (fun v hv => hk v (List.mem_cons_of_mem _ hv))]
      obtain ⟨w, rfl⟩ := meldStep_alSet res p r1 hstep
      exact alGet_alSet_ne res p.1 k w hkp

theorem meldList_truthy : ∀ (kvs : List (String × Value)) (res res' : Dict),
    (∀ p ∈ kvs, truthy p.2 = true) → meldList res kvs = some res' →
    ∀ k : String, (truthyO (alGet res' k) = true ↔
      (∃ v, (k, v) ∈ kvs) ∨ truthyO (alGet res k) = true) := by
  intro kvs
  induction kvs with
  | nil =>
    intro res res' _ h k
    cases h
    simp
  | cons p rest ih =>
    intro res res' hall h k
    simp only [meldList] at h
    cases hstep : meldStep res p with
    | none => simp only [hstep] at h; cases h
    | some r1 =>
      simp only [hstep] at h
      have hiff := ih r1 res' (fun q hq => hall q (List.mem_cons_of_mem _ hq)) h k
      by_cases hk : k = p.1
      · have hr1 : truthyO (alGet r1 p.1) = true :=
          meldStep_self res p r1 (hall p (List.mem_cons_self _ _)) hstep
        subst hk
        constructor
        · intro _
          exact Or.inl ⟨p.2, List.mem_cons_self p rest⟩
        · intro _
          exact hiff.mpr (Or.inr hr1)
      · have hr1 : alGet r1 k = alGet res k := by
          obtain ⟨w, rfl⟩ := meldStep_alSet res p r1 hstep
          exact alGet_alSet_ne res p.1 k w hk
        rw [hiff, hr1]
        constructor
        · rintro (⟨v, hv⟩ | ht)
          · exact Or.inl ⟨v, List.mem_cons_of_mem _ hv⟩
          · exact Or.inr ht
        · rintro (⟨v, hv⟩ | ht)
          · rcases List.mem_cons.mp hv with heq | hm
            · exact absurd (congrArg Prod.fst heq) hk
            · exact Or.inl ⟨v, hm⟩
          · exact Or.inr ht

theorem meldOne_truthy (res cfg res' : Dict) (h : meldOne res cfg = some res')
    (k : String) :
    truthyO (alGet res' k) = true ↔
      (∃ v, (k, v) ∈ cfg ∧ truthy v = true) ∨ truthyO (alGet res k) = true := by
  unfold meldOne at h
  rw [meldList_truthy _ res res' (fun p hp => (List.mem_filter.mp hp).2) h k]
  constructor
  · rintro (⟨v, hv⟩ | ht)
    · rcases List.mem_filter.mp hv with ⟨hmem, htr⟩
      exact Or.inl ⟨v, hmem, by simpa using htr⟩
    · exact Or.inr ht
  · rintro (⟨v, hmem, htr⟩ | ht)
    · exact Or.inl ⟨v, List.mem_filter.mpr ⟨hmem, by simpa using htr⟩⟩
    · exact Or.inr ht

theorem readConfigsModel_truthy : ∀ (configs : List Dict) (res res' : Dict),
    readConfigsModel res configs = some res' → ∀ k : String,
    (truthyO (alGet res' k) = true ↔
      (∃ cfg ∈ configs, ∃ v, (k, v) ∈ cfg ∧ truthy v = true) ∨
        truthyO (alGet res k) = true) := by
  intro configs
  induction configs with
  | nil =>
    intro res res' h k
    cases h
    simp
  | cons cfg rest ih =>
    intro res res' h k
    simp only [readConfigsModel] at h
    cases hone : meldOne res cfg with
    | none => simp only [hone] at h; cases h
    | some r1 =>
      simp only [hone] at h
      rw [ih r1 res' h k, meldOne_truthy res cfg r1 hone k]
      constructor
      · rintro (⟨c, hc, v, hv⟩ | (⟨v, hv⟩ | ht))
        · exact Or.inl ⟨c, List.mem_cons_of_mem _ hc, v, hv⟩
        · exact Or.inl ⟨cfg, List.mem_cons_self _ _, v, hv⟩
        · exact Or.inr ht
      · rintro (⟨c, hc, v, hv⟩ | ht)
        · rcases List.mem_cons.mp hc with rfl | hm
          · exact Or.inr (Or.inl ⟨v, hv⟩)
          · exact Or.inl ⟨c, hm, v, hv⟩
        · exact Or.inr (Or.inr ht)

/-- C10: during melding, a key whose value is falsy in the incoming
source is filtered out before the loop, so every key the source does not
map to a truthy value keeps exactly its previous binding — in
particular a falsy value in a later source can never overwrite an
earlier truthy one. -/
theorem C10_falsy_source_values_ignored :
    ∀ (result option res' : Dict), meldOne result option = some res' →
      ∀ k : String, (∀ v : Value, (k, v) ∈ option → truthy v = false) →
        alGet res' k = alGet result k ∧
        ∀ w, alGet result k = some w → truthy w = true →
          alGet res' k = some w ∧ truthy w = true := by
  intro result option res' h k hk
  have hmain : alGet res' k = alGet result k := by
    unfold meldOne at h
    refine meldList_untouched _ result res' h k ?_
    intro v hv
    rcases List.mem_filter.mp hv with ⟨hmem, htr⟩
    have htv : truthy v = true := by simpa using htr
    rw [hk v hmem] at htv
    cases htv
  exact ⟨hmain, fun w hw ht => ⟨by rw [hmain, hw], ht⟩⟩

theorem C10_falsy_source_values_ignored_witness :
    alGet [("email", Value.str "me"), ("add", Value.bool true)] "add" =
      alGet [("email", Value.str "me"), ("add", Value.bool true)] "add" ∧
    ∀ w, alGet [("email", Value.str "me"), ("add", Value.bool true)] "add" = some w →
      truthy w = true →
      alGet [("email", Value.str "me"), ("add", Value.bool true)] "add" = some w ∧
        truthy w = true :=
  C10_falsy_source_values_ignored
    [("email", Value.str "me"), ("add", Value.bool true)]
    [("add", Value.bool false)]
    [("email", Value.str "me"), ("add", Value.bool true)]
    rfl "add"
    (by
      intro v hv
      rcases List.mem_cons.mp hv with heq | hnil
      · cases heq
        rfl
      · exact absurd hnil (List.not_mem_nil _))

theorem dictUpdate_append : ∀ (xs ys d : List (String × α)),
    dictUpdate d (xs ++ ys) = dictUpdate (dictUpdate d xs) ys := by
  intro xs
  induction xs with
  | nil => intro ys d; rfl
  | cons p rest ih =>
    intro ys d
    simp only [List.cons_append, dictUpdate]
    exact ih ys _

theorem alGet_dictUpdate_optEntry (d : Dict) (k : String) (o : Option String)
    (k' : String) (hk : k' ≠ k) :
    alGet (dictUpdate d (optEntry k o)) k' = alGet d k' := by
  cases o with
  | none => rfl
  | some s => exact alGet_alSet_ne d k k' (Value.str s) hk

theorem alGet_update5_add (X : Dict) (b1 b2 b3 b4 : Bool) (w : String) :
    alGet (dictUpdate X [("add", Value.bool b1), ("sound", Value.bool b2),
      ("debug", Value.bool b3), ("force", Value.bool b4), ("word", Value.str w)])
      "add" = some (Value.bool b1) := by
  show alGet (alSet (alSet (alSet (alSet (alSet X "add" (Value.bool b1)) "sound"
    (Value.bool b2)) "debug" (Value.bool b3)) "force" (Value.bool b4)) "word"
    (Value.str w)) "add" = some (Value.bool b1)
  rw [alGet_alSet_ne _ _ _ _ (by decide), alGet_alSet_ne _ _ _ _ (by decide),
    alGet_alSet_ne _ _ _ _ (by decide), alGet_alSet_ne _ _ _ _ (by decide),
    alGet_alSet_self]

theorem alGet_update5_sound (X : Dict) (b1 b2 b3 b4 : Bool) (w : String) :
    alGet (dictUpdate X [("add", Value.bool b1), ("sound", Value.bool b2),
      ("debug", Value.bool b3), ("force", Value.bool b4), ("word", Value.str w)])
      "sound" = some (Value.bool b2) := by
  show alGet (alSet (alSet (alSet (alSet (alSet X "add" (Value.bool b1)) "sound"
    (Value.bool b2)) "debug" (Value.bool b3)) "force" (Value.bool b4)) "word"
    (Value.str w)) "sound" = some (Value.bool b2)
  rw [alGet_alSet_ne _ _ _ _ (by decide), alGet_alSet_ne _ _ _ _ (by decide),
    alGet_alSet_ne _ _ _ _ (by decide), alGet_alSet_self]

theorem alGet_update5_debug (X : Dict) (b1 b2 b3 b4 : Bool) (w : String) :
    alGet (dictUpdate X [("add", Value.bool b1), ("sound", Value.bool b2),
      ("debug", Value.bool b3), ("force", Value.bool b4), ("word", Value.str w)])
      "debug" = some (Value.bool b3) := by
  show alGet (alSet (alSet (alSet (alSet (alSet X "add" (Value.bool b1)) "sound"
    (Value.bool b2)) "debug" (Value.bool b3)) "force" (Value.bool b4)) "word"
    (Value.str w)) "debug" = some (Value.bool b3)
  rw [alGet_alSet_ne _ _ _ _ (by decide), alGet_alSet_ne _ _ _ _ (by decide),
    alGet_alSet_self]

theorem alGet_update5_force (X : Dict) (b1 b2 b3 b4 : Bool) (w : String) :
    alGet (dictUpdate X [("add", Value.bool b1), ("sound", Value.bool b2),
      ("debug", Value.bool b3), ("force", Value.bool b4), ("word", Value.str w)])
      "force" = some (Value.bool b4) := by
  show alGet (alSet (alSet (alSet (alSet (alSet X "add" (Value.bool b1)) "sound"
    (Value.bool b2)) "debug" (Value.bool b3)) "force" (Value.bool b4)) "word"
    (Value.str w)) "force" = some (Value.bool b4)
  rw [alGet_alSet_ne _ _ _ _ (by decide), alGet_alSet_self]

theorem updated_get_add (a : Args) (merged : Dict) :
    alGet (dictUpdate merged (argsDict a)) "add" = some (Value.bool a.add) := by
  unfold argsDict
  rw [dictUpdate_append, dictUpdate_append, dictUpdate_append, dictUpdate_append,
    alGet_dictUpdate_optEntry _ _ _ _ (by decide), alGet_update5_add]

theorem updated_get_sound (a : Args) (merged : Dict) :
    alGet (dictUpdate merged (argsDict a)) "sound" = some (Value.bool a.sound) := by
  unfold argsDict
  rw [dictUpdate_append, dictUpdate_append, dictUpdate_append, dictUpdate_append,
    alGet_dictUpdate_optEntry _ _ _ _ (by decide), alGet_update5_sound]

theorem updated_get_debug (a : Args) (merged : Dict) :
    alGet (dictUpdate merged (argsDict a)) "debug" = some (Value.bool a.debug) := by
  unfold argsDict
  rw [dictUpdate_append, dictUpdate_append, dictUpdate_append, dictUpdate_append,
    alGet_dictUpdate_optEntry _ _ _ _ (by decide), alGet_update5_debug]

theorem updated_get_force (a : Args) (merged : Dict) :
    alGet (dictUpdate merged (argsDict a)) "force" = some (Value.bool a.force) := by
  unfold argsDict
  rw [dictUpdate_append, dictUpdate_append, dictUpdate_append, dictUpdate_append,
    alGet_dictUpdate_optEntry _ _ _ _ (by decide), alGet_update5_force]

theorem prepareFinal_add (a : Args) (merged : Dict) :
    alGet (prepareFinal a merged) "add" =
      some (pyOrV (Value.bool a.add) (alGet merged "add")) := by
  simp only [prepareFinal]
  rw [alGet_alSet_ne _ _ _ _ (by decide), alGet_alSet_ne _ _ _ _ (by decide),
    alGet_alSet_ne _ _ _ _ (by decide), alGet_alSet_self, updated_get_add]
  rfl

theorem prepareFinal_debug (a : Args) (merged : Dict) :
    alGet (prepareFinal a merged) "debug" =
      some (pyOrV (Value.bool a.debug) (alGet merged "debug")) := by
  simp only [prepareFinal]
  rw [alGet_alSet_ne _ _ _ _ (by decide), alGet_alSet_ne _ _ _ _ (by decide),
    alGet_alSet_self, alGet_alSet_ne _ _ _ _ (by decide), updated_get_debug]
  rfl

theorem prepareFinal_force (a : Args) (merged : Dict) :
    alGet (prepareFinal a merged) "force" =
      some (pyOrV (Value.bool a.force) (alGet merged "force")) := by
  simp only [prepareFinal]
  rw [alGet_alSet_ne _ _ _ _ (by decide), alGet_alSet_self,
    alGet_alSet_ne _ _ _ _ (by decide), alGet_alSet_ne _ _ _ _ (by decide),
    updated_get_force]
  rfl

theorem prepareFinal_sound (a : Args) (merged : Dict) :
    alGet (prepareFinal a merged) "sound" =
      some (pyOrV (Value.bool a.sound) (alGet merged "sound")) := by
  simp only [prepareFinal]
  rw [alGet_alSet_self, alGet_alSet_ne _ _ _ _ (by decide),
    alGet_alSet_ne _ _ _ _ (by decide), alGet_alSet_ne _ _ _ _ (by decide),
    updated_get_sound]
  rfl

theorem truthy_pyOrV_bool (b : Bool) (y : Option Value) :
    truthy (pyOrV (Value.bool b) y) = (b || truthyO y) := by
  cases b
  · cases y with
    | none => rfl
    | some v => simp [pyOrV, truthy]
  · rfl

/-- C6: each of the merged boolean options add, debug, force and sound
is true exactly when the corresponding command-line flag was given or
some config file maps the option to a truthy value — an OR across all
sources, so a boolean set true in a config file stays true even without
the command-line flag. -/
theorem C6_bool_flags_or_combined :
    ∀ (a : Args) (configs : List Dict) (merged : Dict),
      readConfigsModel [] configs = some merged →
      ((truthyO (alGet (prepareFinal a merged) "add") = true ↔
        a.add = true ∨ ∃ cfg ∈ configs, ∃ v, ("add", v) ∈ cfg ∧ truthy v = true)
      ∧ (truthyO (alGet (prepareFinal a merged) "debug") = true ↔
        a.debug = true ∨ ∃ cfg ∈ configs, ∃ v, ("debug", v) ∈ cfg ∧ truthy v = true)
      ∧ (truthyO (alGet (prepareFinal a merged) "force") = true ↔
        a.force = true ∨ ∃ cfg ∈ configs, ∃ v, ("force", v) ∈ cfg ∧ truthy v = true)
      ∧ (truthyO (alGet (prepareFinal a merged) "sound") = true ↔
        a.sound = true ∨ ∃ cfg ∈ configs, ∃ v, ("sound", v) ∈ cfg ∧ truthy v =
          true)) := by
  intro a configs merged h
  have hmk : ∀ k : String, truthyO (alGet merged k) = true ↔
      ∃ cfg ∈ configs, ∃ v, (k, v) ∈ cfg ∧ truthy v = true := by
    intro k
    rw [readConfigsModel_truthy configs [] merged h k]
    simp [alGet]
  refine ⟨?_, ?_, ?_, ?_⟩
  · rw [prepareFinal_add, truthyO_some, truthy_pyOrV_bool, Bool.or_eq_true,
      hmk "add"]
  · rw [prepareFinal_debug, truthyO_some, truthy_pyOrV_bool, Bool.or_eq_true,
      hmk "debug"]
  · rw [prepareFinal_force, truthyO_some, truthy_pyOrV_bool, Bool.or_eq_true,
      hmk "force"]
  · rw [prepareFinal_sound, truthyO_some, truthy_pyOrV_bool, Bool.or_eq_true,
      hmk "sound"]

theorem C6_bool_flags_or_combined_witness :
    truthyO (alGet (prepareFinal ⟨none, none, none, false, false, false, false,
        "hello", none⟩ [("add", Value.bool true)]) "add") = true :=
  (C6_bool_flags_or_combined ⟨none, none, none, false, false, false, false,
      "hello", none⟩ [[("add", Value.bool true)]] [("add", Value.bool true)]
      rfl).1.mpr
    (Or.inr ⟨[("add", Value.bool true)], List.mem_cons_self _ _,
      Value.bool true, List.mem_cons_self _ _, rfl⟩)

end Lingualeo
